import Mathlib

/-!
# Verification of the Downside Up Communicator

Shallow embedding in Lean 4 of the core logic of the Downside Up
Communicator repository: the Morse symbol table, the text-transform layer
(Caesar shift, binary rendering, XOR hex encoding), the transmission
sequencer state machine driven by `handleTransmit` and the Morse
transmission effect, and the transmission history store
(`TransmissionDB`).  Each definition is translated from the TypeScript
source (`App.tsx`, `src/db/database.ts`); theorems at the end settle the
specification's claims about these components.

Modelling conventions: JavaScript strings are modelled as Lean `String`
(operated on through their `List Char` of code points, mirroring
`split('')` / `charCodeAt` / `fromCharCode`); JavaScript numbers that
only ever hold non-negative integers are modelled as `Nat`; the nested
`setTimeout` chains of the transmission effect are modelled as an event
trace (for the per-pulse timing claims) and as a per-character step
function on the application state (for the completion / history claims).
-/

namespace UDC

/-- The Morse code dictionary `MORSE_CODE` from App.tsx, as an
association list from characters to pulse strings. -/
def MORSE_CODE : List (Char × String) :=
  [('A', ".-"), ('B', "-..."), ('C', "-.-."), ('D', "-.."), ('E', "."), ('F', "..-."),
   ('G', "--."), ('H', "...."), ('I', ".."), ('J', ".---"), ('K', "-.-"), ('L', ".-.."),
   ('M', "--"), ('N', "-."), ('O', "---"), ('P', ".--."), ('Q', "--.-"), ('R', ".-."),
   ('S', "..."), ('T', "-"), ('U', "..-"), ('V', "...-"), ('W', ".--"), ('X', "-..-"),
   ('Y', "-.--"), ('Z', "--.."), ('0', "-----"), ('1', ".----"), ('2', "..---"),
   ('3', "...--"), ('4', "....-"), ('5', "....."), ('6', "-...."), ('7', "--..."),
   ('8', "---.."), ('9', "----."), (' ', "/")]

/-- `REVERSE_MORSE` from App.tsx: the Morse dictionary with every
key/value pair swapped (`Object.fromEntries` over the swapped entries). -/
def REVERSE_MORSE : List (String × Char) :=
  MORSE_CODE.map (fun p => (p.2, p.1))

/-- Character encoding: property lookup `MORSE_CODE[char]`. -/
def morseEncode (c : Char) : Option String :=
  List.lookup c MORSE_CODE

/-- Pulse-string decoding: property lookup `REVERSE_MORSE[code]`. -/
def morseDecode (m : String) : Option Char :=
  List.lookup m REVERSE_MORSE

/-- A successful association-list lookup exhibits a member pair. -/
theorem lookup_some_mem {α β : Type} [BEq α] [LawfulBEq α] :
    ∀ (l : List (α × β)) (a : α) (b : β), List.lookup a l = some b → (a, b) ∈ l := by
  intro l
  induction l with
  | nil => intro a b h; simp [List.lookup] at h
  | cons p t ih =>
    intro a b h
    obtain ⟨k, v⟩ := p
    rw [List.lookup] at h
    by_cases hk : (a == k) = true
    · rw [hk] at h
      have ha : a = k := eq_of_beq hk
      cases h
      subst ha
      exact List.mem_cons_self _ _
    · rw [Bool.not_eq_true] at hk
      rw [hk] at h
      exact List.mem_cons_of_mem _ (ih a b h)

/-- Every pair of the Morse dictionary is recovered by the reverse
lookup: the table's values are pairwise distinct, so swapping is an
exact inverse on the supported entries. -/
theorem reverse_morse_complete :
    ∀ p ∈ MORSE_CODE, morseDecode p.2 = some p.1 := by
  decide

/- ### Text Transform Layer -/

/-- The per-character body of `caesarEncrypt` from App.tsx: rotate a
character in `'A'..'Z'` (code points 65..90) by `shift` modulo 26
(`String.fromCharCode(((char.charCodeAt(0) - 65 + shift) % 26) + 65)`);
every other character passes through unchanged. -/
def caesarChar (shift : Nat) (char : Char) : Char :=
  if 65 ≤ char.toNat ∧ char.toNat ≤ 90 then
    Char.ofNat ((char.toNat - 65 + shift) % 26 + 65)
  else char

/-- `caesarEncrypt` from App.tsx: `text.split('').map(...).join('')`. -/
def caesarEncrypt (text : String) (shift : Nat) : String :=
  ⟨text.toList.map (caesarChar shift)⟩

/-- `Char.ofNat` on a valid scalar value recovers that value. -/
theorem toNat_ofNat_valid {n : Nat} (h : n.isValidChar) :
    (Char.ofNat n).toNat = n := by
  rw [Char.ofNat, dif_pos h]
  rfl

/-- Digit character for a value below 16, upper case (the source renders
`toString(16)` and then upper-cases the token, so hex digits appear as
`0-9A-F`). -/
def hexDigitChar (n : Nat) : Char :=
  if n < 10 then Char.ofNat (48 + n) else Char.ofNat (55 + n)

/-- Base-16 digit list of a number, most significant digit first,
modelling JavaScript `Number.prototype.toString(16)` on non-negative
integers (always at least one digit). -/
def toHexDigits (n : Nat) : List Char :=
  if h : n < 16 then [hexDigitChar n]
  else toHexDigits (n / 16) ++ [hexDigitChar (n % 16)]
  termination_by n
  decreasing_by exact Nat.div_lt_self (by omega) (by omega)

/-- Base-2 digit list of a number, most significant digit first,
modelling `Number.prototype.toString(2)` on non-negative integers. -/
def toBinDigits (n : Nat) : List Char :=
  if h : n < 2 then [Char.ofNat (48 + n)]
  else toBinDigits (n / 2) ++ [Char.ofNat (48 + n % 2)]
  termination_by n
  decreasing_by exact Nat.div_lt_self (by omega) (by omega)

/-- `String.prototype.padStart(target, pad)` on a character list: left
pad up to the target length. -/
def jsPadStart (target : Nat) (pad : Char) (l : List Char) : List Char :=
  List.replicate (target - l.length) pad ++ l

/-- `toBinary` from App.tsx: each character's code point rendered as an
8-bit binary string, the per-character strings joined with spaces. -/
def toBinary (text : String) : String :=
  String.intercalate " "
    (text.toList.map (fun char => ⟨jsPadStart 8 '0' (toBinDigits char.toNat)⟩))

/-- `parseInt(s, 10)` restricted to the non-negative inputs the key
field can produce: the longest leading run of decimal digits, `none`
standing for `NaN` when there is no leading digit. -/
def jsParseInt (s : String) : Option Nat :=
  let digits := s.toList.takeWhile Char.isDigit
  if digits.isEmpty then none
  else some (digits.foldl (fun acc c => acc * 10 + (c.toNat - 48)) 0)

/-- The key actually used by `xorEncrypt`: `parseInt(key, 10) || 11`.
Both `NaN` and `0` are falsy in JavaScript, so an unparseable key and
the parsed key `0` alike fall back to 11. -/
def xorKeyNum (key : String) : Nat :=
  match jsParseInt key with
  | some n => if n = 0 then 11 else n
  | none => 11

/-- One output token of `xorEncrypt`: the character's code point XORed
with the numeric key, rendered as upper-case hex padded to two digits
(`xored.toString(16).padStart(2, '0').toUpperCase()`). -/
def xorHexToken (keyNum : Nat) (char : Char) : String :=
  ⟨jsPadStart 2 '0' (toHexDigits (char.toNat ^^^ keyNum))⟩

/-- The list of space-separated hex pairs produced by `xorEncrypt`
(one token per input character, in order). -/
def xorTokens (text key : String) : List String :=
  text.toList.map (xorHexToken (xorKeyNum key))

/-- `xorEncrypt` from App.tsx: XOR each code point with the numeric key
and join the two-digit upper-case hex tokens with spaces. -/
def xorEncrypt (text key : String) : String :=
  String.intercalate " " (xorTokens text key)

/-- Value of an upper-case hex digit character.  Modelled from the spec:
the reconstruction direction ("hex pairs back to code points") has no
counterpart in the repository, so it follows the spec's words. -/
def hexDigitVal (c : Char) : Nat :=
  if c.toNat ≤ 57 then c.toNat - 48 else c.toNat - 55

/-- Modelled from the spec: parse one space-separated hex token back to
a code point ("reconstructing characters from the resulting
space-separated hex pairs back to code points"). -/
def fromHexDigits (l : List Char) : Nat :=
  l.foldl (fun acc c => acc * 16 + hexDigitVal c) 0

theorem hexDigitVal_hexDigitChar {n : Nat} (h : n < 16) :
    hexDigitVal (hexDigitChar n) = n := by
  interval_cases n <;> decide

theorem fromHexDigits_append (l₁ l₂ : List Char) :
    fromHexDigits (l₁ ++ l₂) =
      l₂.foldl (fun acc c => acc * 16 + hexDigitVal c) (fromHexDigits l₁) := by
  simp [fromHexDigits, List.foldl_append]

/-- Parsing inverts rendering for base-16 digits. -/
theorem fromHexDigits_toHexDigits (n : Nat) :
    fromHexDigits (toHexDigits n) = n := by
  induction n using Nat.strong_induction_on with
  | _ n ih =>
    rw [toHexDigits]
    by_cases h : n < 16
    · simp [h, fromHexDigits, hexDigitVal_hexDigitChar h]
    · rw [dif_neg h, fromHexDigits_append]
      have h16 : n % 16 < 16 := Nat.mod_lt _ (by omega)
      simp [List.foldl, ih (n / 16) (Nat.div_lt_self (by omega) (by omega)),
        hexDigitVal_hexDigitChar h16]
      omega

/-- Leading `'0'` padding does not change the parsed value. -/
theorem fromHexDigits_padStart (target : Nat) (l : List Char) :
    fromHexDigits (jsPadStart target '0' l) = fromHexDigits l := by
  unfold jsPadStart
  generalize target - l.length = k
  induction k with
  | zero => simp
  | succ m ih =>
    rw [List.replicate_succ, List.cons_append]
    have : fromHexDigits (('0' :: (List.replicate m '0' ++ l))) =
        fromHexDigits (List.replicate m '0' ++ l) := by
      simp [fromHexDigits, List.foldl, hexDigitVal]
    rw [this, ih]

/- ### Encryption dispatch -/

/-- The `EncryptionMode` union type from App.tsx. -/
inductive EncryptionMode : Type
  | none
  | caesar
  | binary
  | xor
deriving DecidableEq, Repr

/-- Result of `encryptMessage`: the annotated display text and the text
handed to the Morse encoder. -/
structure EncResult where
  display : String
  forMorse : String
deriving DecidableEq, Repr

/-- `encryptMessage` from App.tsx, with the component state it reads
(`encryptionMode`, `caesarShift`, `xorKey`) passed explicitly. -/
def encryptMessage (mode : EncryptionMode) (caesarShift : Nat) (xorKey : String)
    (text : String) : EncResult :=
  match mode with
  | .caesar =>
    let encrypted := caesarEncrypt text caesarShift
    ⟨"[CAESAR+" ++ toString caesarShift ++ "] " ++ encrypted, encrypted⟩
  | .binary => ⟨"[BINARY] " ++ toBinary text, text⟩
  | .xor => ⟨"[XOR^" ++ xorKey ++ "] " ++ xorEncrypt text xorKey, text⟩
  | .none => ⟨text, text⟩

/-- `textToMorse` from App.tsx: upper-case the text, look every
character up in the Morse dictionary (`MORSE_CODE[char] || ''`), and
drop the empty strings of unsupported characters (`filter(Boolean)`). -/
def textToMorse (text : String) : List String :=
  ((text.toList.map Char.toUpper).map (fun char => (morseEncode char).getD "")).filter
    (fun m => m ≠ "")

/- ### Transmission state machine -/

/-- One entry of the `transmissionHistory` state (the HistoryEntry of
the spec): the plaintext `message`, the formatted `timestamp`, and the
annotated display text stored under `encrypted`. -/
structure HistoryEntry where
  message : String
  timestamp : String
  encrypted : Option String
deriving DecidableEq, Repr

/-- The slice of the component state that the transmission logic reads
and writes. -/
structure AppState where
  message : String
  morseOutput : List String
  isTransmitting : Bool
  currentSignalIndex : Nat
  transmissionHistory : List HistoryEntry
  encryptionMode : EncryptionMode
  caesarShift : Nat
  xorKey : String
  emergencyMode : Bool
deriving DecidableEq, Repr

/-- `String.prototype.trim()`: strip leading and trailing whitespace. -/
def jsTrim (s : String) : String :=
  ⟨((s.toList.dropWhile Char.isWhitespace).reverse.dropWhile Char.isWhitespace).reverse⟩

/-- `handleTransmit` from App.tsx.  The guard is only
`if (message.trim())` — a truthy (non-empty) trimmed message; there is
no check of `isTransmitting` inside the handler itself.  On a truthy
message it recomputes the Morse output from the encryption result's
`forMorse` text, sets `isTransmitting`, and resets the signal index. -/
def handleTransmit (s : AppState) : AppState :=
  if jsTrim s.message ≠ "" then
    { s with
      morseOutput :=
        textToMorse (encryptMessage s.encryptionMode s.caesarShift s.xorKey s.message).forMorse,
      isTransmitting := true,
      currentSignalIndex := 0 }
  else s

/-- The spec's `transmit(plaintext, ...)` operation: enter the text into
the message state and invoke `handleTransmit`. -/
def transmit (s : AppState) (text : String) : AppState :=
  handleTransmit { s with message := text }

/-- `handleEmergencySOS` from App.tsx: switch on emergency mode, set the
message to `"SOS"`, and (after the scheduled timeout) start transmitting
`textToMorse("SOS")` from index 0. -/
def handleEmergencySOS (s : AppState) : AppState :=
  { s with
    emergencyMode := true,
    message := "SOS",
    morseOutput := textToMorse "SOS",
    isTransmitting := true,
    currentSignalIndex := 0 }

/-- One round of the Morse transmission effect from App.tsx, observed at
the granularity of whole characters: while transmitting with characters
left it plays the current character's pulses and then advances
`currentSignalIndex`; when the index has passed the end it appends the
history entry `{message, timestamp, encrypted: display}` (also written
to the database) and resets to idle.  The wall-clock timestamp is passed
in as a parameter. -/
def morseStep (timestamp : String) (s : AppState) : AppState :=
  if s.isTransmitting then
    if s.currentSignalIndex < s.morseOutput.length then
      { s with currentSignalIndex := s.currentSignalIndex + 1 }
    else
      let encrypted := encryptMessage s.encryptionMode s.caesarShift s.xorKey s.message
      { s with
        transmissionHistory :=
          s.transmissionHistory ++ [⟨s.message, timestamp, some encrypted.display⟩],
        isTransmitting := false,
        currentSignalIndex := 0,
        message := "" }
  else s

/- ### Per-pulse sequencing (the `playSignal` closure) -/

/-- Observable events of one character's playback: flash state changes,
audio-driver invocations (`playTone(frequency, duration)`), fixed waits,
and the advance of the character index. -/
inductive SigEvent : Type
  | flashBegin (isDit : Bool)
  | tone (frequency : Nat) (duration : Nat)
  | flashEnd
  | gap (ms : Nat)
  | advanceChar
deriving DecidableEq, Repr

/-- Event trace of the `playSignal` closure from App.tsx for one
character's list of pulse signals.  Per signal: flash on with the pulse
kind, `playTone(emergencyMode ? 880 : 700, isDit ? 200 : 600)`, flash
off after the duration, then a 200ms wait before the next signal; once
the signals are exhausted, a 500ms wait and then the advance of
`currentSignalIndex`. -/
def playSignal (emergencyMode : Bool) : List Char → List SigEvent
  | [] => [.gap 500, .advanceChar]
  | signal :: rest =>
    let isDit := signal = '.'
    let duration := if isDit then 200 else 600
    .flashBegin isDit :: .tone (if emergencyMode then 880 else 700) duration ::
      .flashEnd :: .gap 200 :: playSignal emergencyMode rest

/- ### Transmission database (src/db/database.ts) -/

/-- One row of the `transmissions` table. -/
structure DBRow where
  id : Nat
  message : String
  encrypted : Option String
  timestamp : String
  encryption_mode : String
deriving DecidableEq, Repr

/-- Projection returned by `getRecentTransmissions` (no `id` column in
its SELECT list). -/
structure RecentRow where
  message : String
  encrypted : Option String
  timestamp : String
deriving DecidableEq, Repr

/-- The AUTOINCREMENT primary key: one more than the largest id ever
assigned (for an append-only table, the largest id present). -/
def nextId (db : List DBRow) : Nat :=
  (db.map (fun r => r.id)).foldr max 0 + 1

/-- `addTransmission`: INSERT a new row (ids assigned by
AUTOINCREMENT). -/
def addTransmission (db : List DBRow) (message : String) (encrypted : Option String)
    (timestamp : String) (encryptionMode : String) : List DBRow :=
  db ++ [⟨nextId db, message, encrypted, timestamp, encryptionMode⟩]

/-- Insert a row into a list sorted by descending id, keeping the
order (auxiliary for `ORDER BY id DESC`). -/
def insertDesc (r : DBRow) : List DBRow → List DBRow
  | [] => [r]
  | h :: t => if h.id ≤ r.id then r :: h :: t else h :: insertDesc r t

/-- `ORDER BY id DESC` as an insertion sort (ids are unique, so any
sorting algorithm yields this result). -/
def sortByIdDesc : List DBRow → List DBRow
  | [] => []
  | h :: t => insertDesc h (sortByIdDesc t)

/-- `getRecentTransmissions(limit)`:
`SELECT message, encrypted, timestamp FROM transmissions ORDER BY id DESC LIMIT ?`. -/
def getRecentTransmissions (db : List DBRow) (limit : Nat) : List RecentRow :=
  ((sortByIdDesc db).take limit).map (fun r => ⟨r.message, r.encrypted, r.timestamp⟩)

/- ### Concrete example states -/

/-- An idle application state: nothing transmitting, empty history,
default encryption settings (`encryptionMode: 'none'`, `caesarShift: 3`,
`xorKey: '11'`). -/
def idle0 : AppState :=
  { message := ""
    morseOutput := []
    isTransmitting := false
    currentSignalIndex := 0
    transmissionHistory := []
    encryptionMode := EncryptionMode.none
    caesarShift := 3
    xorKey := "11"
    emergencyMode := false }

/-- An idle state whose message field holds only whitespace. -/
def wsState : AppState :=
  { idle0 with message := "  " }

/-- A database holding three transmissions appended in the order
E1, E2, E3. -/
def dbE1E2E3 : List DBRow :=
  addTransmission
    (addTransmission (addTransmission [] "E1" none "t1" "none") "E2" none "t2" "none")
    "E3" none "t3" "none"

/- ### Shared helper lemmas -/

/-- Shifting by `k` and then by `26 - k` is the identity on every
character (both cases of the guard). -/
theorem caesarChar_inverse {k : Nat} (hk : k ≤ 25) (c : Char) :
    caesarChar (26 - k) (caesarChar k c) = c := by
  unfold caesarChar
  by_cases hc : 65 ≤ c.toNat ∧ c.toNat ≤ 90
  · rw [if_pos hc]
    have hv : ((c.toNat - 65 + k) % 26 + 65).isValidChar := by
      have := Nat.mod_lt (c.toNat - 65 + k) (show 0 < 26 by omega)
      left; omega
    have ht : (Char.ofNat ((c.toNat - 65 + k) % 26 + 65)).toNat
        = (c.toNat - 65 + k) % 26 + 65 := toNat_ofNat_valid hv
    rw [if_pos]
    · rw [ht]
      have harg : ((c.toNat - 65 + k) % 26 + 65 - 65 + (26 - k)) % 26 + 65 = c.toNat := by
        omega
      rw [harg, Char.ofNat_toNat]
    · rw [ht]
      have := Nat.mod_lt (c.toNat - 65 + k) (show 0 < 26 by omega)
      constructor <;> omega
  · rw [if_neg hc, if_neg hc]

/-- A row smaller than everything in a descending list is inserted at
the end. -/
theorem insertDesc_eq_append (r : DBRow) :
    ∀ (l : List DBRow), (∀ x ∈ l, r.id < x.id) → insertDesc r l = l ++ [r] := by
  intro l
  induction l with
  | nil => intro _; rfl
  | cons x t ih =>
    intro hall
    have hx : r.id < x.id := hall x (List.mem_cons_self _ _)
    unfold insertDesc
    rw [if_neg (by omega)]
    rw [ih (fun y hy => hall y (List.mem_cons_of_mem _ hy))]
    rfl

/-- On a table whose ids strictly increase in append order, sorting by
descending id is exactly list reversal. -/
theorem sortByIdDesc_eq_reverse :
    ∀ {db : List DBRow}, db.Pairwise (fun a b => a.id < b.id) →
      sortByIdDesc db = db.reverse := by
  intro db
  induction db with
  | nil => intro _; rfl
  | cons x t ih =>
    intro hp
    rw [List.pairwise_cons] at hp
    unfold sortByIdDesc
    rw [ih hp.2, insertDesc_eq_append x t.reverse
      (fun y hy => hp.1 y (List.mem_reverse.mp hy)), List.reverse_cons]

/-- An all-whitespace message trims to the empty string. -/
theorem jsTrim_eq_empty {s : String}
    (h : ∀ c ∈ s.toList, c.isWhitespace = true) : jsTrim s = "" := by
  unfold jsTrim
  have hd : s.toList.dropWhile Char.isWhitespace = [] :=
    List.dropWhile_eq_nil_iff.mpr h
  rw [hd]
  rfl

/-- The Morse translation of `"SOS"`. -/
theorem textToMorse_SOS : textToMorse "SOS" = ["...", "---", "..."] := by
  decide

/-- Parsing a token of `xorEncrypt` back to a code point and XORing
once more with the numeric key recovers the original code point. -/
theorem fromHex_xorHexToken (keyNum : Nat) (c : Char) :
    fromHexDigits (xorHexToken keyNum c).toList ^^^ keyNum = c.toNat := by
  show fromHexDigits (jsPadStart 2 '0' (toHexDigits (c.toNat ^^^ keyNum))) ^^^ keyNum
    = c.toNat
  rw [fromHexDigits_padStart, fromHexDigits_toHexDigits, Nat.xor_assoc, Nat.xor_self,
    Nat.xor_zero]

/- ### Claim theorems -/

/-- C6: for every character whose upper-cased form is in the symbol
table, decoding the encoding yields that upper-cased character:
`REVERSE_MORSE[MORSE_CODE[uppercase(c)]] = uppercase(c)`. -/
theorem morse_decode_encode (c : Char) (m : String)
    (h : morseEncode c.toUpper = some m) :
    morseDecode m = some c.toUpper :=
  reverse_morse_complete (c.toUpper, m) (lookup_some_mem MORSE_CODE c.toUpper m h)

theorem morse_decode_encode_witness :
    morseEncode ('a'.toUpper) = some ".-" ∧ morseDecode ".-" = some ('a'.toUpper) :=
  ⟨by decide, morse_decode_encode 'a' ".-" (by decide)⟩

/-- C7: for every text and every shift `k ≤ 25`, applying
`caesarEncrypt` with `k` and then with `26 - k` returns the original
text (in particular for all-uppercase texts, where the claim states
it). -/
theorem caesar_shift_involutive (text : String) (k : Nat) (hk : k ≤ 25) :
    caesarEncrypt (caesarEncrypt text k) (26 - k) = text := by
  obtain ⟨l⟩ := text
  show String.mk (List.map (caesarChar (26 - k)) (List.map (caesarChar k) l))
    = String.mk l
  rw [List.map_map]
  apply congrArg String.mk
  induction l with
  | nil => rfl
  | cons c t ih =>
    simp only [List.map_cons, List.cons.injEq]
    exact ⟨caesarChar_inverse hk c, ih⟩

theorem caesar_shift_involutive_witness :
    3 ≤ 25 ∧ caesarEncrypt (caesarEncrypt "HELLO" 3) (26 - 3) = "HELLO" :=
  ⟨by decide, caesar_shift_involutive "HELLO" 3 (by decide)⟩

/-- C8: `xorEncrypt` round-trips: its output is the space-joined list of
hex tokens, and parsing each token back to a code point and applying a
second XOR pass with the same (parsed) key yields exactly the original
text's code points. -/
theorem xorEncrypt_roundtrip (text key : String) :
    xorEncrypt text key = String.intercalate " " (xorTokens text key) ∧
    (xorTokens text key).map
        (fun tok => fromHexDigits tok.toList ^^^ xorKeyNum key)
      = text.toList.map Char.toNat := by
  refine ⟨rfl, ?_⟩
  unfold xorTokens
  rw [List.map_map]
  induction text.toList with
  | nil => rfl
  | cons c t ih =>
    simp only [List.map_cons, List.cons.injEq]
    exact ⟨fromHex_xorHexToken (xorKeyNum key) c, ih⟩

/-- C3: the asymmetry of `encryptMessage`: SHIFT (caesar) mode
Morse-encodes the shifted text, BINARY and XOR modes Morse-encode the
original plaintext and only the display string carries the transform,
and NONE mode leaves both components equal to the plaintext. -/
theorem encryptMessage_morse_asymmetry (shift : Nat) (key text : String) :
    (encryptMessage EncryptionMode.caesar shift key text).forMorse
      = caesarEncrypt text shift ∧
    (encryptMessage EncryptionMode.binary shift key text).forMorse = text ∧
    (encryptMessage EncryptionMode.binary shift key text).display
      = "[BINARY] " ++ toBinary text ∧
    (encryptMessage EncryptionMode.xor shift key text).forMorse = text ∧
    (encryptMessage EncryptionMode.xor shift key text).display
      = "[XOR^" ++ key ++ "] " ++ xorEncrypt text key ∧
    (encryptMessage EncryptionMode.none shift key text).forMorse = text ∧
    (encryptMessage EncryptionMode.none shift key text).display = text :=
  ⟨rfl, rfl, rfl, rfl, rfl, rfl, rfl⟩

/-- C5: the event trace of one character's playback: each pulse flashes
with its kind, drives the audio driver at 880Hz in emergency mode and
700Hz otherwise for 200ms (dit) or 600ms (dah), and is followed by a
fixed 200ms inter-pulse gap; after the last pulse a fixed 500ms
inter-character gap precedes the advance of the character index. -/
theorem playSignal_timing (emergencyMode : Bool) (signals : List Char) :
    playSignal emergencyMode signals =
      (signals.map (fun signal =>
        [SigEvent.flashBegin (signal = '.'),
         SigEvent.tone (if emergencyMode then 880 else 700)
           (if signal = '.' then 200 else 600),
         SigEvent.flashEnd, SigEvent.gap 200])).flatten
        ++ [SigEvent.gap 500, SigEvent.advanceChar] := by
  induction signals with
  | nil => rfl
  | cons c t ih => simp [playSignal, ih]

/-- C4: an SOS transmission: `textToMorse "SOS"` is exactly the pulse
sequence `["...", "---", "..."]`, no history entry is appended before
completion, and on completion exactly one history entry is appended
whose plaintext is `"SOS"`, after which the sequencer is idle again. -/
theorem sos_transmission (s : AppState) (ts : String)
    (h : s.encryptionMode = EncryptionMode.none) :
    textToMorse "SOS" = ["...", "---", "..."] ∧
    (morseStep ts (morseStep ts (morseStep ts
        (handleEmergencySOS s)))).transmissionHistory = s.transmissionHistory ∧
    (morseStep ts (morseStep ts (morseStep ts (morseStep ts
        (handleEmergencySOS s))))).transmissionHistory
      = s.transmissionHistory ++ [⟨"SOS", ts, some "SOS"⟩] ∧
    (morseStep ts (morseStep ts (morseStep ts (morseStep ts
        (handleEmergencySOS s))))).isTransmitting = false := by
  refine ⟨textToMorse_SOS, ?_, ?_, ?_⟩ <;>
    simp [handleEmergencySOS, morseStep, textToMorse_SOS, h, encryptMessage]

theorem sos_transmission_witness :
    idle0.encryptionMode = EncryptionMode.none ∧
    (morseStep "12:00:00" (morseStep "12:00:00" (morseStep "12:00:00" (morseStep "12:00:00"
        (handleEmergencySOS idle0))))).transmissionHistory
      = idle0.transmissionHistory ++ [⟨"SOS", "12:00:00", some "SOS"⟩] :=
  ⟨rfl, (sos_transmission idle0 "12:00:00" rfl).2.2.1⟩

/-- C9: an all-whitespace (or empty) message makes `handleTransmit` a
complete no-op — the state is unchanged, so the machine never enters
RUNNING — and if the machine was idle, the transmission effect leaves
the state untouched as well (no pulse, no history entry). -/
theorem transmit_whitespace_noop (s : AppState)
    (h : ∀ c ∈ s.message.toList, c.isWhitespace = true) :
    handleTransmit s = s ∧
      (s.isTransmitting = false → ∀ ts, morseStep ts (handleTransmit s) = s) := by
  have ht : jsTrim s.message = "" := jsTrim_eq_empty h
  have hno : handleTransmit s = s := by
    unfold handleTransmit
    rw [if_neg (by simp [ht])]
  refine ⟨hno, fun hidle ts => ?_⟩
  rw [hno]
  unfold morseStep
  rw [if_neg (by simp [hidle])]

theorem transmit_whitespace_noop_witness :
    (∀ c ∈ wsState.message.toList, c.isWhitespace = true) ∧
      handleTransmit wsState = wsState :=
  ⟨by decide, (transmit_whitespace_noop wsState (by decide)).1⟩

/-- C10: any key string that parses to the number 0 — in particular the
well-formed literal key `"0"` — is silently replaced by the default key
11 (`parseInt(key, 10) || 11`), so `xorEncrypt` behaves exactly as with
the key `"11"`. -/
theorem xorEncrypt_key_zero (text key : String) (h : jsParseInt key = some 0) :
    xorEncrypt text key = xorEncrypt text "11" := by
  have h1 : xorKeyNum key = 11 := by simp [xorKeyNum, h]
  have h2 : xorKeyNum "11" = 11 := by decide
  unfold xorEncrypt xorTokens
  rw [h1, h2]

theorem xorEncrypt_key_zero_witness :
    jsParseInt "0" = some 0 ∧ xorEncrypt "A" "0" = xorEncrypt "A" "11" :=
  ⟨by decide, xorEncrypt_key_zero "A" "0" (by decide)⟩

/-- C1 (counterexample): after `transmit("A")` the machine is RUNNING,
yet `transmit("B")` is not a no-op — it replaces the in-flight pulse
sequence — and the single history entry appended on completion is the
one for `"B"`, not for `"A"`. -/
theorem transmit_while_running_cex :
    (transmit idle0 "A").isTransmitting = true ∧
    (transmit (transmit idle0 "A") "B").morseOutput
      ≠ (transmit idle0 "A").morseOutput ∧
    (morseStep "12:00:00" (morseStep "12:00:00"
        (transmit (transmit idle0 "A") "B"))).transmissionHistory
      = [⟨"B", "12:00:00", some "B"⟩] := by
  decide

/-- C1 (amended): `handleTransmit` has no `isTransmitting` guard.
Calling transmit while a transmission is RUNNING with a non-empty
message replaces the in-flight pulse sequence with the new message's
Morse output, restarts at pulse index 0, and on completion exactly one
history entry is appended — the one for the new message `"B"`. -/
theorem transmit_while_running_restarts (s : AppState) (ts : String)
    (h : s.encryptionMode = EncryptionMode.none) :
    (transmit s "A").isTransmitting = true ∧
    (transmit (transmit s "A") "B").morseOutput = textToMorse "B" ∧
    (transmit (transmit s "A") "B").isTransmitting = true ∧
    (transmit (transmit s "A") "B").currentSignalIndex = 0 ∧
    (morseStep ts (transmit (transmit s "A") "B")).transmissionHistory
      = s.transmissionHistory ∧
    (morseStep ts (morseStep ts
        (transmit (transmit s "A") "B"))).transmissionHistory
      = s.transmissionHistory ++ [⟨"B", ts, some "B"⟩] := by
  refine ⟨?_, ?_, ?_, ?_, ?_, ?_⟩ <;>
    simp +decide [transmit, handleTransmit, morseStep, h, encryptMessage, textToMorse]

theorem transmit_while_running_restarts_witness :
    idle0.encryptionMode = EncryptionMode.none ∧
    (morseStep "12:00:00" (morseStep "12:00:00"
        (transmit (transmit idle0 "A") "B"))).transmissionHistory
      = idle0.transmissionHistory ++ [⟨"B", "12:00:00", some "B"⟩] :=
  ⟨rfl, (transmit_while_running_restarts idle0 "12:00:00" rfl).2.2.2.2.2⟩

/-- C2 (counterexample): with three entries appended in the order E1,
E2, E3 and `limit = 2`, `getRecentTransmissions` returns `[E3, E2]`:
the last element of the returned sequence is E2, not the most recently
appended entry E3, so the order is most-recent-first, not
most-recent-last. -/
theorem getRecentTransmissions_order_cex :
    dbE1E2E3.length = 3 ∧
    getRecentTransmissions dbE1E2E3 2
      = [⟨"E3", none, "t3"⟩, ⟨"E2", none, "t2"⟩] ∧
    (getRecentTransmissions dbE1E2E3 2).getLast? = some ⟨"E2", none, "t2"⟩ ∧
    dbE1E2E3.getLast? = some ⟨3, "E3", none, "t3", "none"⟩ := by
  decide

/-- C2 (amended): on a store whose ids strictly increase in append
order, `getRecentTransmissions(n)` returns exactly the `n` most
recently appended entries ordered most-recent-FIRST: `ORDER BY id DESC`
reverses the append order. -/
theorem getRecentTransmissions_most_recent_first (db : List DBRow) (n : Nat)
    (h : db.Pairwise (fun a b => a.id < b.id)) :
    getRecentTransmissions db n
      = (db.reverse.take n).map (fun r => ⟨r.message, r.encrypted, r.timestamp⟩) := by
  unfold getRecentTransmissions
  rw [sortByIdDesc_eq_reverse h]

theorem getRecentTransmissions_most_recent_first_witness :
    (dbE1E2E3.Pairwise (fun a b => a.id < b.id)) ∧
    getRecentTransmissions dbE1E2E3 2
      = (dbE1E2E3.reverse.take 2).map (fun r => ⟨r.message, r.encrypted, r.timestamp⟩) :=
  ⟨by decide, getRecentTransmissions_most_recent_first dbE1E2E3 2 (by decide)⟩

end UDC
